import Mathlib

/-!
Verification of the STRdust per-locus genotyping engine (src/call.rs, src/main.rs).

The development shallowly embeds the Rust source:
* machine integers are modelled as `Nat`/`Int`; the one place where the source
  performs unsigned arithmetic that can underflow (`start - 10002` on `u32` in
  `make_repeat_compressed_sequence`, call.rs:214) is modelled explicitly with
  checked/wrapping `u32` subtraction;
* `faidx::Reader::fetch_seq(chrom, b, e)` is an external collaborator
  (rust-htslib); its end-inclusive semantics (the returned slice covers the
  zero-based positions `b..=e`) is pinned down by the repository's own test
  `test_make_repeat_compressed_sequence` (call.rs:307-317), which asserts that
  the two fetches of `make_repeat_compressed_sequence` concatenate to exactly
  20000 bases;
* panics (`expect`, `panic!`) are modelled as the `error` side of `Except`
  with one constructor per distinct panic site;
* the regex scan `(:\d+)|(\*\w+)|(\+\w+)|(-\w+)` with `captures_iter`
  (call.rs:256,260) is embedded as an explicit left-to-right maximal-munch
  tokenizer over the characters of the tag (cs tags are ASCII; `\w` is
  modelled as alphanumeric-or-underscore, `\d` as a decimal digit).
-/

namespace STRdust

/-! ## Machine-integer model -/

/-- Modulus of Rust's `u32`. -/
def U32_MOD : Nat := 4294967296

/-- Rust's `i32::MAX`; `str::parse::<i32>` on a digit string succeeds iff the
value is at most this bound. -/
def I32_MAX : Nat := 2147483647

/-- Checked `u32` subtraction: `none` models the arithmetic-underflow panic of
debug-mode Rust on `a - b` with `b > a`. -/
def u32CheckedSub (a b : Nat) : Option Nat :=
  if b ≤ a then some (a - b) else none

/-- Wrapping `u32` subtraction (release-mode Rust behaviour of `a - b`),
for `a, b < 2^32`. -/
def u32WrapSub (a b : Nat) : Nat :=
  (a + U32_MOD - b) % U32_MOD

/-! ## Reference compressor (call.rs:205-220)

The reference genome of one chromosome is modelled as a total function
`rb : Nat → Char` from zero-based position to base; the claims that use it
carry in-bounds hypotheses, matching §4.1/§8 of the spec ("within chromosome
bounds"); out-of-bounds behaviour of the provider is left open by the spec
(§9) and is not modelled. -/

/-- External collaborator `faidx::Reader::fetch_seq(chrom, b, e)`: the bases at
the zero-based positions `b..=e` (end-inclusive, see the file comment). -/
def fetch_seq (rb : Nat → Char) (b e : Nat) : List Char :=
  (List.range (e + 1 - b)).map (fun i => rb (b + i))

/-- Embedding of `make_repeat_compressed_sequence` (call.rs:205-220):
`fetch_seq(chrom, (start - 10002) as usize, start as usize - 2)` concatenated
with `fetch_seq(chrom, end as usize, (end + 9998) as usize)`.  The subtraction
`start - 10002` is performed on `u32`; `none` models its underflow panic
(there is no bounds guard in the source, only a TODO comment at call.rs:212).
In the branch where it succeeds `start ≥ 10002 > 2`, so the later
`start as usize - 2` cannot underflow and is plain subtraction. -/
def make_repeat_compressed_sequence (rb : Nat → Char) (start e : Nat) :
    Option (List Char) :=
  match u32CheckedSub start 10002 with
  | none => none
  | some ls => some (fetch_seq rb ls (start - 2) ++ fetch_seq rb e (e + 9998))

/-! ## The cs-tag tokenizer (the regex scan of call.rs:256,260) -/

/-- One captured operation of the cs tag: its leading symbol and the
characters following it (`cap[0][1..]`). -/
structure Tok where
  op : Char
  arg : List Char
deriving DecidableEq

/-- Models the regex character class `\w` on the ASCII alphabet of cs tags. -/
def isWordChar (c : Char) : Bool :=
  c.isAlphanum || c == '_'

/-- The four leading symbols that can start a capture of the regex
`(:\d+)|(\*\w+)|(\+\w+)|(-\w+)`. -/
def isOpChar (c : Char) : Bool :=
  c == ':' || c == '*' || c == '+' || c == '-'

/-- Whether character `c` extends a running capture that started with `op`:
digits extend a `:` capture, word characters extend the other three. -/
def extendsRun (op c : Char) : Bool :=
  if op = ':' then c.isDigit else isWordChar c

/-- Left-to-right scan of `captures_iter` over the cs-tag regex: the pending
state holds the leading symbol of a capture in progress together with the
(reversed) argument characters consumed so far.  A capture is emitted when its
maximal run ends and is dropped when the run is empty (the regex requires at
least one `\d`/`\w` after the symbol); characters that cannot start or extend
a capture are skipped, exactly as `captures_iter` skips text between
matches. -/
def tokLoop : Option (Char × List Char) → List Char → List Tok
  | none, [] => []
  | some (op, acc), [] =>
      if acc.isEmpty then [] else [⟨op, acc.reverse⟩]
  | none, c :: l =>
      if isOpChar c then tokLoop (some (c, [])) l else tokLoop none l
  | some (op, acc), c :: l =>
      if extendsRun op c then tokLoop (some (op, c :: acc)) l
      else
        (if acc.isEmpty then [] else [⟨op, acc.reverse⟩])
          ++ (if isOpChar c then tokLoop (some (c, [])) l else tokLoop none l)

/-- The operations captured by the regex scan over a cs tag. -/
def tokenizeCs (l : List Char) : List Tok :=
  tokLoop none l

/-- Numeric value of a captured digit string (the value `str::parse` would
return, ignoring the `i32` bound which is checked separately). -/
def digitsToNat (l : List Char) : Nat :=
  l.foldl (fun acc c => acc * 10 + (c.toNat - 48)) 0

instance {e a : Type} [DecidableEq e] [DecidableEq a] : DecidableEq (Except e a) := fun x y =>
  match x, y with
  | .ok u, .ok v =>
      if h : u = v then isTrue (by rw [h]) else isFalse (fun hh => h (Except.ok.inj hh))
  | .error u, .error v =>
      if h : u = v then isTrue (by rw [h]) else isFalse (fun hh => h (Except.error.inj hh))
  | .ok _, .error _ => isFalse (fun hh => Except.noConfusion hh)
  | .error _, .ok _ => isFalse (fun hh => Except.noConfusion hh)

/-! ## parse_cs (call.rs:250-302) -/

/-- The two panic sites inside `parse_cs`:
* `lenParse` models `.expect("Unable to parse length from CS':' operation")`
  (call.rs:267), reachable when the digit string of a `:` capture exceeds
  `i32::MAX`;
* `unexpectedOp op` models `panic!("Unexpected operation in cs tag: {op}")`
  (call.rs:293). -/
inductive CsPanic where
  | lenParse : CsPanic
  | unexpectedOp : Char → CsPanic
deriving DecidableEq

/-- The loop body of `parse_cs` (call.rs:260-296): fold over the captured
operations, maintaining the reference cursor `ref_pos` (an `i32` in the
source, modelled as `Int`) and the list of retained insertions.  Match `:n`
advances the cursor by `n`; mismatch `*..` by half the captured length;
deletion `-..` by the captured length; insertion `+..` does not advance the
cursor and its bases are retained iff its length exceeds `minlen` and the
cursor lies in `9990..=10010` (call.rs:287). -/
def parseOps (minlen : Nat) : List Tok → Int → List (List Char) →
    Except CsPanic (List (List Char))
  | [], _, ins => .ok ins
  | tok :: rest, refPos, ins =>
    if tok.op = ':' then
      if digitsToNat tok.arg ≤ I32_MAX then
        parseOps minlen rest (refPos + (digitsToNat tok.arg : Int)) ins
      else .error .lenParse
    else if tok.op = '*' then
      parseOps minlen rest (refPos + (tok.arg.length : Int) / 2) ins
    else if tok.op = '-' then
      parseOps minlen rest (refPos + (tok.arg.length : Int)) ins
    else if tok.op = '+' then
      if tok.arg.length > minlen ∧ 9990 ≤ refPos ∧ refPos ≤ 10010 then
        parseOps minlen rest refPos (ins ++ [tok.arg])
      else parseOps minlen rest refPos ins
    else .error (.unexpectedOp tok.op)

/-- Embedding of `Vec::join("")` on the retained insertion strings: plain concatenation. -/
def joinAll : List (List Char) → List Char
  | [] => []
  | x :: xs => x ++ joinAll xs

/-- Embedding of `parse_cs` (call.rs:250-302).  The `Mapping` argument of the
source is represented by the two fields it reads: `read.target_start` (the
initial reference cursor) and the `cs` tag string; the `expect`s that access
them (call.rs:252-253) concern the external aligner's output shape and are
outside this embedding.  Returns `some` of the concatenation of the retained
insertions when at least one was retained, `none` otherwise
(call.rs:297-301). -/
def parse_cs (targetStart : Int) (cs : String) (minlen : Nat) :
    Except CsPanic (Option String) :=
  match parseOps minlen (tokenizeCs cs.data) targetStart [] with
  | .error p => .error p
  | .ok ins => .ok (if ins.isEmpty then none else some (String.mk (joinAll ins)))


/-! ## Spec-side description of the scan (§4.3 of the spec)

These two definitions follow the words of the specification, not the source;
they exist to be compared with `parse_cs` in the refinement theorems. -/

/-- Modelled from the spec (§4.3): the cursor advance of one operation —
`match` advances by `n`, `mismatch` by `operation_length/2`, `deletion` by the
length of the deleted literal, `insertion` by zero. -/
def csAdvance (t : Tok) : Int :=
  if t.op = ':' then (digitsToNat t.arg : Int)
  else if t.op = '*' then (t.arg.length : Int) / 2
  else if t.op = '-' then (t.arg.length : Int)
  else 0

/-- Modelled from the spec (§4.3): "scan operations left to right, updating
the cursor per the rules above; on an insertion operation, test
`(length > minlen) AND (window_low <= cursor <= window_high)`" with the window
`[junction-10, junction+10] = [9990, 10010]`; qualifying insertions are
appended in order of appearance. -/
def scanSpec (minlen : Nat) : Int → List Tok → List (List Char)
  | _, [] => []
  | cursor, tok :: rest =>
    (if tok.op = '+' ∧ tok.arg.length > minlen ∧ 9990 ≤ cursor ∧ cursor ≤ 10010
      then [tok.arg] else [])
      ++ scanSpec minlen (cursor + csAdvance tok) rest

/-- The per-read candidate assembled from the retained insertions
(call.rs:297-301): `none` when no insertion qualified, otherwise the
concatenation of all qualifying insertions. -/
def candidateOf (l : List (List Char)) : Option String :=
  if l.isEmpty then none else some (String.mk (joinAll l))

/-! ## Haplotype read partitioner (call.rs:222-248) and genotype_repeat
(call.rs:147-203)

The external alignment store is modelled by the list of contig names of the
BAM header (`bam.header().tid` succeeds exactly on those) and a fetch function
returning the overlapping records; each record carries its base sequence and
the phase that `crate::utils::get_phase` (module not under src/; per spec §4.2
an integer in {0,1,2}) reads from its HP tag. -/

/-- One alignment record as consumed by `get_overlapping_reads`: its base
sequence and haplotype phase. -/
structure BamRec where
  seq : List Char
  phase : Nat

/-- The per-haplotype read sets (the `HashMap` with keys 1 and 2 of
call.rs:234). -/
structure Seqs where
  h1 : List (List Char)
  h2 : List (List Char)

/-- The external collaborators of one run: the reference base function, the
BAM header contig names, the record fetch, and the remainder of
`genotype_repeat` past the read partitioning (minimap2 alignment of each read,
the consensus call — `crate::consensus`, a module not under src/ — and the
assembly of the record's tail, whose `format!` string is truncated in the
source at call.rs:200-202).  That remainder is irrelevant to the claims
settled here, which concern the paths before it or only the record prefix. -/
structure Env where
  rb : Nat → Char
  contigs : List String
  fetchReads : String → Nat → Nat → List BamRec
  downstream : List Char → Seqs → Nat → Nat → Bool → String

/-- Embedding of `get_overlapping_reads` (call.rs:222-248): `none` iff the
chromosome name is absent from the BAM header (`bam.header().tid` returns
`None`); otherwise the overlapping records with phase 1 resp. 2 are bucketed
(phase 0 records are dropped, call.rs:240). -/
def get_overlapping_reads (env : Env) (chrom : String) (start e : Nat) :
    Option Seqs :=
  if chrom ∈ env.contigs then
    some
      { h1 := (env.fetchReads chrom start e).filterMap
          (fun r => if r.phase = 1 then some r.seq else none),
        h2 := (env.fetchReads chrom start e).filterMap
          (fun r => if r.phase = 2 then some r.seq else none) }
  else none

/-- The panic sites of `genotype_repeat` reachable in this embedding:
* `u32Underflow`: the debug-mode underflow of `start - 10002` inside
  `make_repeat_compressed_sequence` (call.rs:214);
* `couldNotGetReads`: `.expect("Could not get reads")` (call.rs:158) on the
  `None` returned by `get_overlapping_reads` for a missing contig. -/
inductive GPanic where
  | u32Underflow : GPanic
  | couldNotGetReads : GPanic
deriving DecidableEq

/-- The intact leading fields of the output record of `genotype_repeat`
(call.rs:200-201): `format!("{chrom}\t{start}\t.\t...")` — chromosome, a tab,
the decimal rendering of `start`, a tab and the `.` placeholder, followed by
the rest of the line. -/
def formatRecord (chrom : String) (start : Nat) (rest : String) : String :=
  chrom ++ "\t" ++ toString start ++ "\t." ++ rest

/-- Embedding of `genotype_repeat` (call.rs:147-203).  It first builds the
repeat-compressed reference (call.rs:157), then fetches the overlapping reads
(call.rs:158) — `.expect` turns a missing contig into a panic — and on success
assembles the output record.  Note that the body of the source function
contains no `Err(..)` return at all: the declared
`Result<String, String>` error side is never produced. -/
def genotype_repeat (env : Env) (chrom : String) (start e : Nat)
    (minlen support : Nat) (somatic : Bool) :
    Except GPanic (Except String String) :=
  match make_repeat_compressed_sequence env.rb start e with
  | none => .error .u32Underflow
  | some newref =>
    match get_overlapping_reads env chrom start e with
    | none => .error .couldNotGetReads
    | some seqs =>
        .ok (.ok (formatRecord chrom start
          (env.downstream newref seqs minlen support somatic)))

/-- Returns `true` exactly on a locus-scoped recoverable error
(`Ok` at the panic level, `Err(chrom)` at the `Result` level). -/
def isLocusErr : Except GPanic (Except String String) → Bool
  | .ok (.error _) => true
  | _ => false

/-! ## Genotype scheduler (genotype_repeats, call.rs:13-142) -/

/-- One region-file locus. -/
structure Locus where
  chrom : String
  start : Nat
  stop : Nat

/-- The run-wide mutable state of `genotype_repeats`: the chromosomes whose
absence was already reported (`chrom_reported`, call.rs:64/112), the sequence
of emitted "Contig not found" reports, and the collected genotype records. -/
structure RunState where
  chromReported : List String
  reports : List String
  genotypes : List String

/-- The `Err(chrom)` arm of `genotype_repeats` (call.rs:84-92 and 129-136):
report "Contig {chrom} not found in bam file" and remember the chromosome,
unless it was already reported. -/
def handleLocusErr (st : RunState) (chrom : String) : RunState :=
  if chrom ∈ st.chromReported then st
  else
    { st with
      reports := st.reports ++ [chrom],
      chromReported := st.chromReported ++ [chrom] }

/-- The locus loop of `genotype_repeats` (single-worker form,
call.rs:114-138; the multi-worker form runs the same per-locus step over some
interleaving of the loci).  A panic inside `genotype_repeat` propagates and
aborts the whole run, discarding the state. -/
def genotype_repeats_loop (env : Env) (minlen support : Nat) (somatic : Bool) :
    List Locus → RunState → Except GPanic RunState
  | [], st => .ok st
  | l :: rest, st =>
    match genotype_repeat env l.chrom l.start l.stop minlen support somatic with
    | .error p => .error p
    | .ok (.ok out) =>
        genotype_repeats_loop env minlen support somatic rest
          { st with genotypes := st.genotypes ++ [out] }
    | .ok (.error c) =>
        genotype_repeats_loop env minlen support somatic rest (handleLocusErr st c)

/-! ## The final sort of the multi-worker mode (call.rs:95-100)

`genotypes` is a `Vec<String>`; `sort_unstable` sorts it by `Ord` on `String`,
which is lexicographic byte-wise comparison of the UTF-8 encodings — equal to
lexicographic comparison of the scalar values of the characters. -/

/-- Rust's `Ord` on strings, on the underlying character lists: the first
position where the two differ decides; a strict prefix sorts first. -/
def charsLe : List Char → List Char → Bool
  | [], _ => true
  | _ :: _, [] => false
  | a :: as_, b :: bs =>
      if a < b then true else if b < a then false else charsLe as_ bs

/-- Rust's `String` ordering used by `sort_unstable` (call.rs:97). -/
def strLe (a b : String) : Bool :=
  charsLe a.data b.data

/-- Ascending insertion of one record into a sorted record list. -/
def insertStr (x : String) : List String → List String
  | [] => [x]
  | y :: ys => if strLe x y then x :: y :: ys else y :: insertStr x ys

/-- Embedding of `genotypes_vec.sort_unstable()` (call.rs:97): the collected
records, sorted ascending by Rust's `String` ordering.  (An unstable sort is
unconstrained among equal elements; insertion sort is one refinement of it,
and the claims below do not depend on the order of equal records.) -/
def sortGenotypes : List String → List String
  | [] => []
  | x :: xs => insertStr x (sortGenotypes xs)

/-! ## Lemmas about the tokenizer -/

lemma isEmpty_eq_false_of_ne_nil {α : Type} {l : List α} (h : l ≠ []) :
    l.isEmpty = false := by
  cases l with
  | nil => exact absurd rfl h
  | cons a as_ => rfl

/-- A maximal run of digits is consumed into a pending `:` capture. -/
lemma tokLoop_run_colon (ds : List Char) (hd : ∀ c ∈ ds, c.isDigit = true) :
    ∀ (acc l : List Char),
      tokLoop (some (':', acc)) (ds ++ l) = tokLoop (some (':', ds.reverse ++ acc)) l := by
  induction ds with
  | nil => intro acc l; simp
  | cons c cs ih =>
    intro acc l
    have hc : c.isDigit = true := hd c (List.mem_cons_self c cs)
    have hext : extendsRun ':' c = true := by simp [extendsRun, hc]
    have hcs : ∀ x ∈ cs, x.isDigit = true := fun x hx => hd x (List.mem_cons_of_mem c hx)
    have hstep : tokLoop (some (':', acc)) (c :: (cs ++ l))
        = tokLoop (some (':', c :: acc)) (cs ++ l) := by
      simp [tokLoop, hext]
    rw [List.cons_append, hstep, ih hcs (c :: acc) l]
    congr 2
    simp

/-- A maximal run of word characters is consumed into a pending non-`:`
capture. -/
lemma tokLoop_run_word (op : Char) (hne : ¬ op = ':') (ws : List Char)
    (hw : ∀ c ∈ ws, isWordChar c = true) :
    ∀ (acc l : List Char),
      tokLoop (some (op, acc)) (ws ++ l) = tokLoop (some (op, ws.reverse ++ acc)) l := by
  induction ws with
  | nil => intro acc l; simp
  | cons c cs ih =>
    intro acc l
    have hc : isWordChar c = true := hw c (List.mem_cons_self c cs)
    have hext : extendsRun op c = true := by simp [extendsRun, hne, hc]
    have hcs : ∀ x ∈ cs, isWordChar x = true := fun x hx => hw x (List.mem_cons_of_mem c hx)
    have hstep : tokLoop (some (op, acc)) (c :: (cs ++ l))
        = tokLoop (some (op, c :: acc)) (cs ++ l) := by
      simp [tokLoop, hext]
    rw [List.cons_append, hstep, ih hcs (c :: acc) l]
    congr 2
    simp

/-- Tokenizing `:<digits>+<word>` yields exactly the match capture and the
insertion capture. -/
lemma tokenizeCs_colon_plus (ds s : List Char) (hds : ds ≠ [])
    (hd : ∀ c ∈ ds, c.isDigit = true) (hs : s ≠ [])
    (hw : ∀ c ∈ s, isWordChar c = true) :
    tokenizeCs (':' :: (ds ++ '+' :: s)) = [⟨':', ds⟩, ⟨'+', s⟩] := by
  have h1 : tokLoop none (':' :: (ds ++ '+' :: s))
      = tokLoop (some (':', [])) (ds ++ '+' :: s) := by
    simp [tokLoop, isOpChar]
  have h2 := tokLoop_run_colon ds hd [] ('+' :: s)
  have hrev : ds.reverse ≠ [] := by simpa using hds
  have h3 : tokLoop (some (':', ds.reverse ++ [])) ('+' :: s)
      = ⟨':', ds⟩ :: tokLoop (some ('+', [])) s := by
    have hext : extendsRun ':' '+' = false := by decide
    simp [tokLoop, hext, isEmpty_eq_false_of_ne_nil hrev, isOpChar]
  have h4 : tokLoop (some ('+', [])) s = tokLoop (some ('+', s.reverse)) [] := by
    have := tokLoop_run_word '+' (by decide) s hw [] []
    simpa using this
  have h5 : tokLoop (some ('+', s.reverse)) [] = [⟨'+', s⟩] := by
    have hrevs : s.reverse ≠ [] := by simpa using hs
    simp [tokLoop, isEmpty_eq_false_of_ne_nil hrevs]
  unfold tokenizeCs
  rw [h1, h2, h3, h4, h5]

/-- Tokenizing `:<digits>+<word>+<word>` yields the match capture and the two
insertion captures in order. -/
lemma tokenizeCs_colon_plus_plus (ds s1 s2 : List Char) (hds : ds ≠ [])
    (hd : ∀ c ∈ ds, c.isDigit = true) (hs1 : s1 ≠ [])
    (hw1 : ∀ c ∈ s1, isWordChar c = true) (hs2 : s2 ≠ [])
    (hw2 : ∀ c ∈ s2, isWordChar c = true) :
    tokenizeCs (':' :: (ds ++ '+' :: (s1 ++ '+' :: s2)))
      = [⟨':', ds⟩, ⟨'+', s1⟩, ⟨'+', s2⟩] := by
  have h1 : tokLoop none (':' :: (ds ++ '+' :: (s1 ++ '+' :: s2)))
      = tokLoop (some (':', [])) (ds ++ '+' :: (s1 ++ '+' :: s2)) := by
    simp [tokLoop, isOpChar]
  have h2 := tokLoop_run_colon ds hd [] ('+' :: (s1 ++ '+' :: s2))
  have hrev : ds.reverse ≠ [] := by simpa using hds
  have h3 : tokLoop (some (':', ds.reverse ++ [])) ('+' :: (s1 ++ '+' :: s2))
      = ⟨':', ds⟩ :: tokLoop (some ('+', [])) (s1 ++ '+' :: s2) := by
    have hext : extendsRun ':' '+' = false := by decide
    simp [tokLoop, hext, isEmpty_eq_false_of_ne_nil hrev, isOpChar]
  have h4 := tokLoop_run_word '+' (by decide) s1 hw1 [] ('+' :: s2)
  have hrev1 : s1.reverse ≠ [] := by simpa using hs1
  have h5 : tokLoop (some ('+', s1.reverse ++ [])) ('+' :: s2)
      = ⟨'+', s1⟩ :: tokLoop (some ('+', [])) s2 := by
    have hext : extendsRun '+' '+' = false := by decide
    simp [tokLoop, hext, isEmpty_eq_false_of_ne_nil hrev1, isOpChar]
  have h6 : tokLoop (some ('+', [])) s2 = tokLoop (some ('+', s2.reverse)) [] := by
    have := tokLoop_run_word '+' (by decide) s2 hw2 [] []
    simpa using this
  have hrev2 : s2.reverse ≠ [] := by simpa using hs2
  have h7 : tokLoop (some ('+', s2.reverse)) [] = [⟨'+', s2⟩] := by
    simp [tokLoop, isEmpty_eq_false_of_ne_nil hrev2]
  unfold tokenizeCs
  rw [h1, h2, h3, h4, h5, h6, h7]

/-- Every capture the scan emits starts with one of the four operation
symbols: pending captures are only ever created on such a symbol. -/
lemma tokLoop_ops (l : List Char) :
    ∀ (p : Option (Char × List Char)),
      (∀ op acc, p = some (op, acc) → isOpChar op = true) →
      ∀ t ∈ tokLoop p l, isOpChar t.op = true := by
  induction l with
  | nil =>
    intro p hp t ht
    match p, ht with
    | none, ht => simp [tokLoop] at ht
    | some (op, acc), ht =>
      simp only [tokLoop] at ht
      by_cases hacc : acc.isEmpty
      · simp [hacc] at ht
      · simp only [hacc, if_false, Bool.false_eq_true, List.mem_singleton] at ht
        subst ht
        exact hp op acc rfl
  | cons c cs ih =>
    intro p hp t ht
    match p, ht with
    | none, ht =>
      simp only [tokLoop] at ht
      by_cases hc : isOpChar c
      · simp only [hc, if_true] at ht
        exact ih (some (c, [])) (by intro op acc h; cases h; exact hc) t ht
      · simp only [hc, Bool.false_eq_true, if_false] at ht
        exact ih none (by intro op acc h; cases h) t ht
    | some (op, acc), ht =>
      simp only [tokLoop] at ht
      by_cases hext : extendsRun op c
      · simp only [hext, if_true] at ht
        exact ih (some (op, c :: acc))
          (by intro op' acc' h; cases h; exact hp op acc rfl) t ht
      · simp only [hext, Bool.false_eq_true, if_false, List.mem_append] at ht
        rcases ht with ht | ht
        · by_cases hacc : acc.isEmpty
          · simp [hacc] at ht
          · simp only [hacc, if_false, Bool.false_eq_true, List.mem_singleton] at ht
            subst ht
            exact hp op acc rfl
        · by_cases hc : isOpChar c
          · simp only [hc, if_true] at ht
            exact ih (some (c, [])) (by intro op' acc' h; cases h; exact hc) t ht
          · simp only [hc, Bool.false_eq_true, if_false] at ht
            exact ih none (by intro op' acc' h; cases h) t ht

/-- Every capture of a tokenized cs tag starts with one of the four operation
symbols. -/
lemma tokenizeCs_ops (l : List Char) :
    ∀ t ∈ tokenizeCs l, isOpChar t.op = true :=
  tokLoop_ops l none (by intro op acc h; cases h)

/-! ## Refinement: parse_cs against the spec's scan -/

/-- The fold of `parse_cs` computes exactly the spec's left-to-right scan,
appended to the accumulator, whenever every capture starts with a recognized
symbol and every `:` capture parses within `i32`. -/
lemma parseOps_eq_scanSpec (m : Nat) (toks : List Tok) :
    ∀ (pos : Int) (acc : List (List Char)),
      (∀ t ∈ toks, isOpChar t.op = true) →
      (∀ t ∈ toks, t.op = ':' → digitsToNat t.arg ≤ I32_MAX) →
      parseOps m toks pos acc = .ok (acc ++ scanSpec m pos toks) := by
  induction toks with
  | nil => intro pos acc _ _; simp [parseOps, scanSpec]
  | cons tok rest ih =>
    intro pos acc hops hlen
    obtain ⟨op, arg⟩ := tok
    have hop : isOpChar op = true := hops ⟨op, arg⟩ (List.mem_cons_self _ rest)
    have hops' : ∀ t ∈ rest, isOpChar t.op = true :=
      fun t ht => hops t (List.mem_cons_of_mem _ ht)
    have hlen' : ∀ t ∈ rest, t.op = ':' → digitsToNat t.arg ≤ I32_MAX :=
      fun t ht => hlen t (List.mem_cons_of_mem _ ht)
    by_cases h1 : op = ':'
    · subst h1
      have hb : digitsToNat arg ≤ I32_MAX :=
        hlen ⟨':', arg⟩ (List.mem_cons_self _ rest) rfl
      rw [show parseOps m (⟨':', arg⟩ :: rest) pos acc
            = parseOps m rest (pos + (digitsToNat arg : Int)) acc from by
          simp [parseOps, hb]]
      rw [show scanSpec m pos (⟨':', arg⟩ :: rest)
            = scanSpec m (pos + (digitsToNat arg : Int)) rest from by
          simp [scanSpec, csAdvance]]
      exact ih _ acc hops' hlen'
    · by_cases h2 : op = '*'
      · subst h2
        rw [show parseOps m (⟨'*', arg⟩ :: rest) pos acc
              = parseOps m rest (pos + (arg.length : Int) / 2) acc from by
            simp [parseOps]]
        rw [show scanSpec m pos (⟨'*', arg⟩ :: rest)
              = scanSpec m (pos + (arg.length : Int) / 2) rest from by
            simp [scanSpec, csAdvance]]
        exact ih _ acc hops' hlen'
      · by_cases h3 : op = '-'
        · subst h3
          rw [show parseOps m (⟨'-', arg⟩ :: rest) pos acc
                = parseOps m rest (pos + (arg.length : Int)) acc from by
              simp [parseOps]]
          rw [show scanSpec m pos (⟨'-', arg⟩ :: rest)
                = scanSpec m (pos + (arg.length : Int)) rest from by
              simp [scanSpec, csAdvance]]
          exact ih _ acc hops' hlen'
        · have h4 : op = '+' := by
            simp only [isOpChar, Bool.or_eq_true, beq_iff_eq] at hop
            tauto
          subst h4
          by_cases hcond : arg.length > m ∧ 9990 ≤ pos ∧ pos ≤ 10010
          · rw [show parseOps m (⟨'+', arg⟩ :: rest) pos acc
                  = parseOps m rest pos (acc ++ [arg]) from by
                simp [parseOps, hcond]]
            rw [show scanSpec m pos (⟨'+', arg⟩ :: rest)
                  = [arg] ++ scanSpec m pos rest from by
                simp [scanSpec, csAdvance, hcond]]
            rw [ih _ (acc ++ [arg]) hops' hlen']
            simp
          · rw [show parseOps m (⟨'+', arg⟩ :: rest) pos acc
                  = parseOps m rest pos acc from by
                simp [parseOps, hcond]]
            rw [show scanSpec m pos (⟨'+', arg⟩ :: rest)
                  = scanSpec m pos rest from by
                simp [scanSpec, csAdvance, hcond]]
            exact ih _ acc hops' hlen'

/-- A scan over match-only captures never yields a candidate. -/
lemma scanSpec_matchOnly (m : Nat) (toks : List Tok) :
    ∀ pos : Int, (∀ t ∈ toks, t.op = ':') → scanSpec m pos toks = [] := by
  induction toks with
  | nil => intro pos _; simp [scanSpec]
  | cons tok rest ih =>
    intro pos hcol
    have h : tok.op = ':' := hcol tok (List.mem_cons_self tok rest)
    have hrest := ih (pos + csAdvance tok) (fun t ht => hcol t (List.mem_cons_of_mem tok ht))
    simp [scanSpec, h, hrest]

/-- Every insertion retained by the fold of `parse_cs` is longer than
`minlen`. -/
lemma parseOps_ok_mem_length (m : Nat) (toks : List Tok) :
    ∀ (pos : Int) (acc l : List (List Char)),
      (∀ x ∈ acc, m < x.length) → parseOps m toks pos acc = .ok l →
      ∀ x ∈ l, m < x.length := by
  induction toks with
  | nil =>
    intro pos acc l hacc h
    have : acc = l := Except.ok.inj h
    subst this
    exact hacc
  | cons tok rest ih =>
    intro pos acc l hacc h
    obtain ⟨op, arg⟩ := tok
    by_cases h1 : op = ':'
    · subst h1
      by_cases hb : digitsToNat arg ≤ I32_MAX
      · rw [show parseOps m (⟨':', arg⟩ :: rest) pos acc
              = parseOps m rest (pos + (digitsToNat arg : Int)) acc from by
            simp [parseOps, hb]] at h
        exact ih _ acc l hacc h
      · rw [show parseOps m (⟨':', arg⟩ :: rest) pos acc = .error .lenParse from by
            simp [parseOps, hb]] at h
        exact absurd h (by simp)
    · by_cases h2 : op = '*'
      · subst h2
        rw [show parseOps m (⟨'*', arg⟩ :: rest) pos acc
              = parseOps m rest (pos + (arg.length : Int) / 2) acc from by
            simp [parseOps]] at h
        exact ih _ acc l hacc h
      · by_cases h3 : op = '-'
        · subst h3
          rw [show parseOps m (⟨'-', arg⟩ :: rest) pos acc
                = parseOps m rest (pos + (arg.length : Int)) acc from by
              simp [parseOps]] at h
          exact ih _ acc l hacc h
        · by_cases h4 : op = '+'
          · subst h4
            by_cases hcond : arg.length > m ∧ 9990 ≤ pos ∧ pos ≤ 10010
            · rw [show parseOps m (⟨'+', arg⟩ :: rest) pos acc
                    = parseOps m rest pos (acc ++ [arg]) from by
                  simp [parseOps, hcond]] at h
              refine ih _ (acc ++ [arg]) l ?_ h
              intro x hx
              rcases List.mem_append.mp hx with hx | hx
              · exact hacc x hx
              · rw [List.mem_singleton.mp hx]
                exact hcond.1
            · rw [show parseOps m (⟨'+', arg⟩ :: rest) pos acc
                    = parseOps m rest pos acc from by
                  simp [parseOps, hcond]] at h
              exact ih _ acc l hacc h
          · rw [show parseOps m (⟨op, arg⟩ :: rest) pos acc
                  = .error (.unexpectedOp op) from by
                simp [parseOps, h1, h2, h3, h4]] at h
            exact absurd h (by simp)

/-- The concatenation of a non-empty list of strings each longer than `m` is
longer than `m`. -/
lemma joinAll_length_gt (m : Nat) (l : List (List Char)) (hne : l ≠ [])
    (hall : ∀ x ∈ l, m < x.length) : m < (joinAll l).length := by
  cases l with
  | nil => exact absurd rfl hne
  | cons x xs =>
    have hx : m < x.length := hall x (List.mem_cons_self x xs)
    simp only [joinAll, List.length_append]
    omega

/-- Returns `true` exactly on the result of reaching the `panic!("Unexpected
operation in cs tag: {op}")` arm. -/
def isUnexpectedOpResult {α : Type} : Except CsPanic α → Bool
  | .error (.unexpectedOp _) => true
  | _ => false

/-- The fold of `parse_cs` never reaches the unexpected-operation panic arm
when every capture starts with a recognized symbol. -/
lemma parseOps_no_unexpectedOp (m : Nat) (toks : List Tok)
    (hops : ∀ t ∈ toks, isOpChar t.op = true) :
    ∀ (pos : Int) (acc : List (List Char)),
      isUnexpectedOpResult (parseOps m toks pos acc) = false := by
  induction toks with
  | nil => intro pos acc; simp [parseOps, isUnexpectedOpResult]
  | cons tok rest ih =>
    intro pos acc
    obtain ⟨op, arg⟩ := tok
    have hop : isOpChar op = true := hops ⟨op, arg⟩ (List.mem_cons_self _ rest)
    have hops' : ∀ t ∈ rest, isOpChar t.op = true :=
      fun t ht => hops t (List.mem_cons_of_mem _ ht)
    have ih' := ih hops'
    by_cases h1 : op = ':'
    · subst h1
      by_cases hb : digitsToNat arg ≤ I32_MAX
      · rw [show parseOps m (⟨':', arg⟩ :: rest) pos acc
              = parseOps m rest (pos + (digitsToNat arg : Int)) acc from by
            simp [parseOps, hb]]
        exact ih' _ acc
      · rw [show parseOps m (⟨':', arg⟩ :: rest) pos acc = .error .lenParse from by
            simp [parseOps, hb]]
        rfl
    · by_cases h2 : op = '*'
      · subst h2
        rw [show parseOps m (⟨'*', arg⟩ :: rest) pos acc
              = parseOps m rest (pos + (arg.length : Int) / 2) acc from by
            simp [parseOps]]
        exact ih' _ acc
      · by_cases h3 : op = '-'
        · subst h3
          rw [show parseOps m (⟨'-', arg⟩ :: rest) pos acc
                = parseOps m rest (pos + (arg.length : Int)) acc from by
              simp [parseOps]]
          exact ih' _ acc
        · have h4 : op = '+' := by
            simp only [isOpChar, Bool.or_eq_true, beq_iff_eq] at hop
            tauto
          subst h4
          by_cases hcond : arg.length > m ∧ 9990 ≤ pos ∧ pos ≤ 10010
          · rw [show parseOps m (⟨'+', arg⟩ :: rest) pos acc
                  = parseOps m rest pos (acc ++ [arg]) from by
                simp [parseOps, hcond]]
            exact ih' _ _
          · rw [show parseOps m (⟨'+', arg⟩ :: rest) pos acc
                  = parseOps m rest pos acc from by
                simp [parseOps, hcond]]
            exact ih' _ acc

/-! ## Claim theorems for the alignment-tag parser -/

/-- C6: while `parse_cs` parses a cs tag, the reference cursor starts at the
alignment's target start offset (the `targetStart` argument, threaded as the
initial cursor of the fold) and, for every operation, advances exactly per the
spec's rules — by `n` on a match `:n`, by half the captured length on a
mismatch `*`, by the captured length on a deletion `-`, and by zero on an
insertion `+`: the parser is extensionally equal to the spec-side scan
`scanSpec` whose cursor is defined by exactly those rules (`csAdvance`),
whenever every `:` capture parses within `i32`. -/
theorem C6_cursor_advance_refines_spec (t : Int) (cs : String) (m : Nat)
    (hlen : ∀ tok ∈ tokenizeCs cs.data, tok.op = ':' → digitsToNat tok.arg ≤ I32_MAX) :
    parse_cs t cs m = .ok (candidateOf (scanSpec m t (tokenizeCs cs.data))) := by
  have h := parseOps_eq_scanSpec m (tokenizeCs cs.data) t []
    (tokenizeCs_ops cs.data) hlen
  unfold parse_cs
  rw [h]
  simp [candidateOf]

/-- Witness for C6 at a concrete tag. -/
theorem C6_cursor_advance_refines_spec_witness :
    parse_cs 0 (":10000+AAAAAA") 5
      = .ok (candidateOf (scanSpec 5 0 (tokenizeCs ((":10000+AAAAAA").data)))) :=
  C6_cursor_advance_refines_spec 0 (":10000+AAAAAA") 5 (by decide)

/-- C5: an insertion's bases are recorded iff its length exceeds `minlen` and
the running cursor lies in `[9990, 10010]`.  Part one: a tag whose captures
are all match operations yields no candidate.  Part two: for a tag consisting
of a match `:D` followed by an insertion `+s` (so the cursor at the insertion
is exactly `D`), the parser yields the single candidate `s` precisely when
`s.length > minlen` and `9990 ≤ D ≤ 10010`, and `none` otherwise — in
particular, at the junction offset `D = 10000` it yields exactly the inserted
bases, and outside the window it yields none. -/
theorem C5_insertion_window_rule :
    (∀ (t : Int) (cs : String) (m : Nat),
      ((tokenizeCs cs.data).all fun tok => tok.op == ':') = true →
      (∀ tok ∈ tokenizeCs cs.data, digitsToNat tok.arg ≤ I32_MAX) →
      parse_cs t cs m = .ok none)
    ∧ (∀ (m : Nat) (ds s : List Char),
      ds ≠ [] → (∀ c ∈ ds, c.isDigit = true) → digitsToNat ds ≤ I32_MAX →
      s ≠ [] → (∀ c ∈ s, isWordChar c = true) →
      parse_cs 0 (String.mk (':' :: (ds ++ '+' :: s))) m
        = .ok (if s.length > m ∧ 9990 ≤ (digitsToNat ds : Int)
                  ∧ (digitsToNat ds : Int) ≤ 10010
            then some (String.mk s) else none)) := by
  constructor
  · intro t cs m hall hlen
    have hcol : ∀ tok ∈ tokenizeCs cs.data, tok.op = ':' := by
      intro tok htok
      exact beq_iff_eq.mp (List.all_eq_true.mp hall tok htok)
    have h := parseOps_eq_scanSpec m (tokenizeCs cs.data) t []
      (fun tok ht => by rw [hcol tok ht]; rfl)
      (fun tok ht _ => hlen tok ht)
    unfold parse_cs
    rw [h, scanSpec_matchOnly m _ t hcol]
    simp [candidateOf]
  · intro m ds s hds hd hI32 hs hw
    have htok : tokenizeCs ((String.mk (':' :: (ds ++ '+' :: s))).data)
        = [⟨':', ds⟩, ⟨'+', s⟩] := tokenizeCs_colon_plus ds s hds hd hs hw
    unfold parse_cs
    rw [htok]
    rw [show parseOps m [⟨':', ds⟩, ⟨'+', s⟩] 0 []
          = parseOps m [⟨'+', s⟩] ((digitsToNat ds : Int)) [] from by
        simp [parseOps, hI32]]
    by_cases hcond : s.length > m ∧ 9990 ≤ (digitsToNat ds : Int)
        ∧ (digitsToNat ds : Int) ≤ 10010
    · rw [show parseOps m [⟨'+', s⟩] ((digitsToNat ds : Int)) [] = .ok [s] from by
          simp [parseOps, hcond]]
      have hnes : ([s] : List (List Char)).isEmpty = false := rfl
      simp [hnes, joinAll, hcond]
    · rw [show parseOps m [⟨'+', s⟩] ((digitsToNat ds : Int)) [] = .ok [] from by
          have hcondN : ¬(s.length > m ∧ 9990 ≤ digitsToNat ds ∧ digitsToNat ds ≤ 10010) := by
            intro hc
            exact hcond ⟨hc.1, by exact_mod_cast hc.2.1, by exact_mod_cast hc.2.2⟩
          simp [parseOps, hcondN]]
      rw [if_neg hcond]
      rfl

/-- Witness for C5: a match-only tag yields no candidate; a qualifying
insertion at the junction yields exactly the inserted bases. -/
theorem C5_insertion_window_rule_witness :
    parse_cs 0 (":12:34") 7 = .ok none
    ∧ parse_cs 0 (String.mk (':' :: (("10000").data ++ '+' :: ("TTTTTTT").data))) 5
        = .ok (if ("TTTTTTT").data.length > 5
              ∧ 9990 ≤ (digitsToNat (("10000").data) : Int)
              ∧ (digitsToNat (("10000").data) : Int) ≤ 10010
            then some (String.mk (("TTTTTTT").data)) else none) :=
  ⟨C5_insertion_window_rule.1 0 (":12:34") 7 (by decide) (by decide),
   C5_insertion_window_rule.2 5 (("10000").data) (("TTTTTTT").data)
     (by decide) (by decide) (by decide) (by decide) (by decide)⟩

/-- C7: one read yields at most one candidate.  Part one: two qualifying
insertions of one read are concatenated, in order of appearance, into the
single returned candidate.  Part two: when no insertion qualifies (the spec
scan is empty) the parser returns `none` rather than an empty string. -/
theorem C7_at_most_one_candidate_per_read :
    (∀ (m : Nat) (s1 s2 : List Char),
      s1 ≠ [] → (∀ c ∈ s1, isWordChar c = true) → s1.length > m →
      s2 ≠ [] → (∀ c ∈ s2, isWordChar c = true) → s2.length > m →
      parse_cs 0 (String.mk (':' :: (("10000").data ++ '+' :: (s1 ++ '+' :: s2)))) m
        = .ok (some (String.mk (s1 ++ s2))))
    ∧ (∀ (t : Int) (cs : String) (m : Nat),
      (∀ tok ∈ tokenizeCs cs.data, tok.op = ':' → digitsToNat tok.arg ≤ I32_MAX) →
      scanSpec m t (tokenizeCs cs.data) = [] →
      parse_cs t cs m = .ok none) := by
  constructor
  · intro m s1 s2 hs1 hw1 hl1 hs2 hw2 hl2
    have htok : tokenizeCs ((String.mk (':' :: (("10000").data ++ '+' :: (s1 ++ '+' :: s2)))).data)
        = [⟨':', ("10000").data⟩, ⟨'+', s1⟩, ⟨'+', s2⟩] :=
      tokenizeCs_colon_plus_plus (("10000").data) s1 s2 (by decide) (by decide)
        hs1 hw1 hs2 hw2
    have hD : digitsToNat (("10000").data) = 10000 := by decide
    have hDI : ((digitsToNat (("10000").data) : Nat) : Int) = ((10000 : Nat) : Int) := by
      rw [hD]
    have hb : digitsToNat (("10000").data) ≤ I32_MAX := by decide
    unfold parse_cs
    rw [htok]
    rw [show parseOps m [⟨':', ("10000").data⟩, ⟨'+', s1⟩, ⟨'+', s2⟩] 0 []
          = parseOps m [⟨'+', s1⟩, ⟨'+', s2⟩] ((digitsToNat (("10000").data) : Int)) [] from by
        simp [parseOps, hb]]
    have hcond1 : s1.length > m ∧ (9990 : Int) ≤ (digitsToNat (("10000").data) : Int)
        ∧ (digitsToNat (("10000").data) : Int) ≤ 10010 := by
      refine ⟨hl1, ?_, ?_⟩ <;> rw [hDI] <;> norm_num
    rw [show parseOps m [⟨'+', s1⟩, ⟨'+', s2⟩] ((digitsToNat (("10000").data) : Int)) []
          = parseOps m [⟨'+', s2⟩] ((digitsToNat (("10000").data) : Int)) ([] ++ [s1]) from by
        simp [parseOps, hcond1]]
    have hcond2 : s2.length > m ∧ (9990 : Int) ≤ (digitsToNat (("10000").data) : Int)
        ∧ (digitsToNat (("10000").data) : Int) ≤ 10010 := by
      refine ⟨hl2, ?_, ?_⟩ <;> rw [hDI] <;> norm_num
    rw [show parseOps m [⟨'+', s2⟩] ((digitsToNat (("10000").data) : Int)) ([] ++ [s1])
          = .ok ([s1, s2]) from by simp [parseOps, hcond2]]
    have hne : ([s1, s2] : List (List Char)).isEmpty = false := rfl
    simp [hne, joinAll]
  · intro t cs m hlen hscan
    have h := parseOps_eq_scanSpec m (tokenizeCs cs.data) t []
      (tokenizeCs_ops cs.data) hlen
    unfold parse_cs
    rw [h, hscan]
    simp [candidateOf]

/-- Witness for C7: two qualifying insertions at the junction concatenate in
order; a deletion-shifted tag with no qualifying insertion yields none. -/
theorem C7_at_most_one_candidate_per_read_witness :
    parse_cs 0 (String.mk (':' :: (("10000").data ++ '+' :: (("AAAAAA").data ++ '+' :: ("CCCCCCC").data)))) 5
      = .ok (some (String.mk (("AAAAAA").data ++ ("CCCCCCC").data)))
    ∧ parse_cs 0 (":12:34") 5 = .ok none :=
  ⟨C7_at_most_one_candidate_per_read.1 5 (("AAAAAA").data) (("CCCCCCC").data)
     (by decide) (by decide) (by decide) (by decide) (by decide) (by decide),
   C7_at_most_one_candidate_per_read.2 0 (":12:34") 5 (by decide) (by decide)⟩

/-- C10: every candidate `parse_cs` returns is non-empty, indeed strictly
longer than `minlen`: each retained insertion is longer than `minlen` and an
empty retained list yields `none`, never an empty string. -/
theorem C10_candidate_longer_than_minlen (t : Int) (cs : String) (m : Nat)
    (s : String) (h : parse_cs t cs m = .ok (some s)) :
    m < s.length ∧ s ≠ "" := by
  unfold parse_cs at h
  cases heq : parseOps m (tokenizeCs cs.data) t [] with
  | error p => rw [heq] at h; exact absurd h (by simp)
  | ok ins =>
    rw [heq] at h
    by_cases hemp : ins.isEmpty
    · simp [hemp] at h
    · simp only [hemp, Bool.false_eq_true, if_false, Except.ok.injEq, Option.some.injEq] at h
      have hne : ins ≠ [] := by
        intro h0
        rw [h0] at hemp
        simp at hemp
      have hall := parseOps_ok_mem_length m (tokenizeCs cs.data) t [] ins
        (by intro x hx; simp at hx) heq
      have hlen : m < (joinAll ins).length := joinAll_length_gt m ins hne hall
      have hslen : s.length = (joinAll ins).length := by
        rw [← h]
        rfl
      constructor
      · omega
      · intro h0
        rw [h0] at hslen
        have : (0 : Nat) = (joinAll ins).length := hslen
        omega

/-- Witness for C10 at a concrete tag. -/
theorem C10_candidate_longer_than_minlen_witness :
    5 < ("CCCCCCC" : String).length ∧ ("CCCCCCC" : String) ≠ "" :=
  C10_candidate_longer_than_minlen 0 (":9995+CCCCCCC") 5 ("CCCCCCC") (by decide)

/-! ## Claim theorems for C2 (unrecognized operation symbols) -/

/-- C2 counterexample: the tag `:4*ac=ACGT+TTTTTTT` contains the operation
`=ACGT`, whose leading symbol `=` is none of the four recognized kinds.  The
claim says `parse_cs` panics on it; in fact the regex scan silently skips the
unmatched text `=ACGT` (the captures are exactly `:4`, `*ac`, `+TTTTTTT`) and
the parser returns an ordinary candidate without any panic. -/
theorem C2_unrecognized_op_silently_skipped :
    parse_cs 9986 (":4*ac=ACGT+TTTTTTT") 5 = .ok (some ("TTTTTTT"))
    ∧ tokenizeCs ((":4*ac=ACGT+TTTTTTT").data)
        = [⟨':', ("4").data⟩, ⟨'*', ("ac").data⟩, ⟨'+', ("TTTTTTT").data⟩] :=
  ⟨by decide, by decide⟩

/-- C2 as amended: text that does not match one of the four capture patterns
`:digits`, `*word`, `+word`, `-word` is silently skipped by the regex scan,
so an unrecognized operation symbol never reaches the
`panic!("Unexpected operation in cs tag: {op}")` arm — for every input that
arm is unreachable (the only reachable panic of `parse_cs` is the `i32`
length-parse failure of a `:` capture). -/
theorem C2_unexpected_op_arm_unreachable (t : Int) (cs : String) (m : Nat) :
    isUnexpectedOpResult (parse_cs t cs m) = false := by
  have h := parseOps_no_unexpectedOp m (tokenizeCs cs.data)
    (tokenizeCs_ops cs.data) t []
  unfold parse_cs
  cases heq : parseOps m (tokenizeCs cs.data) t [] with
  | error p =>
    rw [heq] at h
    cases p with
    | lenParse => rfl
    | unexpectedOp c => exact absurd h (by simp [isUnexpectedOpResult])
  | ok ins => rfl

/-! ## Claim theorems for the reference compressor (C4, C9) -/

lemma fetch_seq_length (rb : Nat → Char) (b e : Nat) :
    (fetch_seq rb b e).length = e + 1 - b := by
  simp [fetch_seq]

lemma fetch_seq_getElem? (rb : Nat → Char) (b e i : Nat) (h : i < e + 1 - b) :
    (fetch_seq rb b e)[i]? = some (rb (b + i)) := by
  simp [fetch_seq, List.getElem?_map, List.getElem?_range, h]

/-- The zero-based reference positions of the left flank actually fetched:
`start - 10002` through `start - 2` inclusive, 10001 positions. -/
def posL (start : Nat) : List Nat :=
  (List.range 10001).map (fun i => start - 10002 + i)

/-- The zero-based reference positions of the right flank actually fetched:
`end` through `end + 9998` inclusive, 9999 positions. -/
def posR (e : Nat) : List Nat :=
  (List.range 9999).map (fun i => e + i)

/-- C4 counterexample.  Take the reference `rbCE` whose bases differ before
and after position 20000, and the locus `start = 10002`, `end = 20000` (both
flanks in bounds for any chromosome of length ≥ 29999).  The claim asserts
the result is 10000 bases ending 2 bases before `start` (positions 1..10000)
followed by 10000 bases starting at `end` (positions 20000..29999).  It is
not: the fetches are end-inclusive, so the left flank has 10001 bases
(positions 0..10000) and the right flank 9999 — at offset 10000 the actual
sequence still holds the left-flank base `rbCE 10000 = 'A'` where the claimed
sequence holds `rbCE 20000 = 'C'`. -/
def rbCE : Nat → Char := fun p => if p < 20000 then 'A' else 'C'

/-- C4 is false as stated: the compressed sequence is not a 10000-base left
flank followed by a 10000-base right flank. -/
theorem C4_flank_sizes_counterexample :
    make_repeat_compressed_sequence rbCE 10002 20000
      ≠ some (fetch_seq rbCE 1 10000 ++ fetch_seq rbCE 20000 29999) := by
  intro h
  have hact : make_repeat_compressed_sequence rbCE 10002 20000
      = some (fetch_seq rbCE 0 10000 ++ fetch_seq rbCE 20000 29998) := rfl
  rw [hact] at h
  have heq := Option.some.inj h
  have h10000 := congrArg (fun l => l[10000]?) heq
  simp only [] at h10000
  have hlen1 : (fetch_seq rbCE 0 10000).length = 10001 := by
    rw [fetch_seq_length]
  have hlenC : (fetch_seq rbCE 1 10000).length = 10000 := by
    rw [fetch_seq_length]
  rw [List.getElem?_append_left (by rw [hlen1]; norm_num)] at h10000
  rw [List.getElem?_append_right (by rw [hlenC])] at h10000
  rw [fetch_seq_getElem? rbCE 0 10000 10000 (by norm_num)] at h10000
  rw [hlenC] at h10000
  rw [show (10000 - 10000 : Nat) = 0 from rfl] at h10000
  rw [fetch_seq_getElem? rbCE 20000 29999 0 (by norm_num)] at h10000
  have hAB : rbCE (0 + 10000) = rbCE (20000 + 0) := Option.some.inj h10000
  rw [show rbCE (0 + 10000) = 'A' from rfl, show rbCE (20000 + 0) = 'C' from rfl] at hAB
  exact absurd hAB (by decide)

/-- C4 as amended: for every locus with both flanks in bounds
(`10002 ≤ start ≤ end`), `make_repeat_compressed_sequence` succeeds and
returns exactly 20000 = 2F bases: the 10001 bases at positions
`start - 10002 .. start - 2` (ending 2 bases before `start`) followed by the
9999 bases at positions `end .. end + 9998` (starting at `end`); every fetched
position lies outside `[start, end)`, so the sequence contains no bases of the
excised span.  In particular for chr7:154654404-154654432 the result has
length 20000 (the repository's own test). -/
theorem C4_compressed_reference_structure (rb : Nat → Char) (start e : Nat)
    (h1 : 10002 ≤ start) (_h2 : start ≤ e) :
    make_repeat_compressed_sequence rb start e = some ((posL start ++ posR e).map rb)
    ∧ ((posL start ++ posR e).map rb).length = 20000
    ∧ (∀ p ∈ posL start, start - 10002 ≤ p ∧ p ≤ start - 2)
    ∧ (∀ p ∈ posR e, e ≤ p ∧ p ≤ e + 9998)
    ∧ (∀ p ∈ posL start ++ posR e, p < start ∨ e ≤ p) := by
  have hsub : u32CheckedSub start 10002 = some (start - 10002) := by
    simp [u32CheckedSub, h1]
  refine ⟨?_, ?_, ?_, ?_, ?_⟩
  · have hL : fetch_seq rb (start - 10002) (start - 2) = (posL start).map rb := by
      unfold fetch_seq posL
      have hc : start - 2 + 1 - (start - 10002) = 10001 := by omega
      rw [hc, List.map_map]
      rfl
    have hR : fetch_seq rb e (e + 9998) = (posR e).map rb := by
      unfold fetch_seq posR
      have hc : e + 9998 + 1 - e = 9999 := by omega
      rw [hc, List.map_map]
      rfl
    simp only [make_repeat_compressed_sequence, hsub]
    rw [List.map_append, hL, hR]
  · simp [posL, posR]
  · intro p hp
    simp only [posL, List.mem_map, List.mem_range] at hp
    obtain ⟨i, hi, rfl⟩ := hp
    omega
  · intro p hp
    simp only [posR, List.mem_map, List.mem_range] at hp
    obtain ⟨i, hi, rfl⟩ := hp
    omega
  · intro p hp
    rcases List.mem_append.mp hp with hp | hp
    · simp only [posL, List.mem_map, List.mem_range] at hp
      obtain ⟨i, hi, rfl⟩ := hp
      left
      omega
    · simp only [posR, List.mem_map, List.mem_range] at hp
      obtain ⟨i, hi, rfl⟩ := hp
      right
      omega

/-- Witness for C4 (amended) at the chr7:154654404-154654432 scenario of the
spec and the repository's test. -/
theorem C4_compressed_reference_structure_witness :
    make_repeat_compressed_sequence (fun _ => 'A') 154654404 154654432
      = some ((posL 154654404 ++ posR 154654432).map (fun _ => 'A'))
    ∧ ((posL 154654404 ++ posR 154654432).map (fun _ => 'A')).length = 20000
    ∧ (∀ p ∈ posL 154654404, 154654404 - 10002 ≤ p ∧ p ≤ 154654404 - 2)
    ∧ (∀ p ∈ posR 154654432, 154654432 ≤ p ∧ p ≤ 154654432 + 9998)
    ∧ (∀ p ∈ posL 154654404 ++ posR 154654432, p < 154654404 ∨ 154654432 ≤ p) :=
  C4_compressed_reference_structure (fun _ => 'A') 154654404 154654432
    (by norm_num) (by norm_num)

/-- C9: the left-flank start coordinate is `start - 10002` on `u32` with no
bounds guard, well-defined only under the unstated precondition
`start ≥ 10002`.  For every `start < 10002` the subtraction underflows: under
checked (debug) arithmetic the whole call panics
(`make_repeat_compressed_sequence` returns `none` for every reference and
`end`), and under wrapping (release) arithmetic it wraps around to
`start + 2^32 - 10002`.  For `start ≥ 10002` both semantics agree with plain
subtraction. -/
theorem C9_left_flank_u32_underflow (start : Nat) (hs : start < U32_MOD) :
    (start < 10002 →
      u32CheckedSub start 10002 = none
      ∧ (∀ (rb : Nat → Char) (e : Nat),
          make_repeat_compressed_sequence rb start e = none)
      ∧ u32WrapSub start 10002 = start + 4294957294)
    ∧ (10002 ≤ start →
      u32CheckedSub start 10002 = some (start - 10002)
      ∧ u32WrapSub start 10002 = start - 10002) := by
  constructor
  · intro h
    have hcs : u32CheckedSub start 10002 = none := by
      unfold u32CheckedSub
      rw [if_neg (by omega)]
    refine ⟨hcs, ?_, ?_⟩
    · intro rb e
      unfold make_repeat_compressed_sequence
      rw [hcs]
    · unfold u32WrapSub U32_MOD
      omega
  · intro h
    refine ⟨?_, ?_⟩
    · unfold u32CheckedSub
      rw [if_pos h]
    · unfold u32WrapSub U32_MOD
      have h32 : (10002 : Nat) ≤ U32_MOD := by unfold U32_MOD; omega
      unfold U32_MOD at hs
      omega

/-- Witness for C9: `start = 0` underflows, `start = 154654404` is fine. -/
theorem C9_left_flank_u32_underflow_witness :
    (u32CheckedSub 0 10002 = none
      ∧ (∀ (rb : Nat → Char) (e : Nat),
          make_repeat_compressed_sequence rb 0 e = none)
      ∧ u32WrapSub 0 10002 = 0 + 4294957294)
    ∧ (u32CheckedSub 154654404 10002 = some (154654404 - 10002)
      ∧ u32WrapSub 154654404 10002 = 154654404 - 10002) :=
  ⟨(C9_left_flank_u32_underflow 0 (by norm_num [U32_MOD])).1 (by norm_num),
   (C9_left_flank_u32_underflow 154654404 (by norm_num [U32_MOD])).2 (by norm_num)⟩

/-! ## Ordering lemmas for the record sort -/

lemma charsLe_total : ∀ a b : List Char, charsLe a b = true ∨ charsLe b a = true := by
  intro a
  induction a with
  | nil => intro b; left; rfl
  | cons x xs ih =>
    intro b
    cases b with
    | nil => right; rfl
    | cons y ys =>
      rcases lt_trichotomy x y with h | h | h
      · left; simp [charsLe, h]
      · subst h
        rcases ih ys with h2 | h2
        · left; simp [charsLe, lt_self_iff_false, h2]
        · right; simp [charsLe, lt_self_iff_false, h2]
      · right; simp [charsLe, h]

lemma charsLe_trans : ∀ a b c : List Char,
    charsLe a b = true → charsLe b c = true → charsLe a c = true := by
  intro a
  induction a with
  | nil => intro b c _ _; rfl
  | cons x xs ih =>
    intro b c hab hbc
    cases b with
    | nil => simp [charsLe] at hab
    | cons y ys =>
      cases c with
      | nil => simp [charsLe] at hbc
      | cons z zs =>
        rcases lt_trichotomy x y with hxy | hxy | hxy
        · rcases lt_trichotomy y z with hyz | hyz | hyz
          · have hxz : x < z := lt_trans hxy hyz
            simp [charsLe, hxz]
          · subst hyz
            simp [charsLe, hxy]
          · simp [charsLe, lt_asymm hyz, hyz] at hbc
        · subst hxy
          rcases lt_trichotomy x z with hyz | hyz | hyz
          · simp [charsLe, hyz]
          · subst hyz
            simp only [charsLe, lt_self_iff_false, if_false] at hab hbc ⊢
            exact ih ys zs hab hbc
          · simp [charsLe, lt_asymm hyz, hyz] at hbc
        · simp [charsLe, lt_asymm hxy, hxy] at hab

lemma strLe_total (a b : String) : strLe a b = true ∨ strLe b a = true :=
  charsLe_total a.data b.data

lemma strLe_trans {a b c : String} (h1 : strLe a b = true) (h2 : strLe b c = true) :
    strLe a c = true :=
  charsLe_trans a.data b.data c.data h1 h2

lemma perm_insertStr (x : String) (l : List String) :
    List.Perm (insertStr x l) (x :: l) := by
  induction l with
  | nil => rfl
  | cons y ys ih =>
    by_cases hxy : strLe x y = true
    · rw [insertStr, if_pos hxy]
    · rw [insertStr, if_neg hxy]
      exact (ih.cons y).trans (List.Perm.swap x y ys)

lemma sorted_insertStr (x : String) (l : List String)
    (h : List.Sorted (fun a b => strLe a b = true) l) :
    List.Sorted (fun a b => strLe a b = true) (insertStr x l) := by
  induction l with
  | nil => simp [insertStr]
  | cons y ys ih =>
    rw [List.sorted_cons] at h
    obtain ⟨hy, hys⟩ := h
    by_cases hxy : strLe x y = true
    · rw [insertStr, if_pos hxy, List.sorted_cons]
      refine ⟨?_, ?_⟩
      · intro b hb
        rcases List.mem_cons.mp hb with rfl | hb
        · exact hxy
        · exact strLe_trans hxy (hy b hb)
      · rw [List.sorted_cons]
        exact ⟨hy, hys⟩
    · rw [insertStr, if_neg hxy, List.sorted_cons]
      refine ⟨?_, ih hys⟩
      intro b hb
      have hb' := (perm_insertStr x ys).mem_iff.mp hb
      rcases List.mem_cons.mp hb' with hbx | hb'
      · rw [hbx]
        rcases strLe_total x y with h | h
        · exact absurd h hxy
        · exact h
      · exact hy b hb'

lemma perm_sortGenotypes (l : List String) : List.Perm (sortGenotypes l) l := by
  induction l with
  | nil => rfl
  | cons x xs ih =>
    exact (perm_insertStr x (sortGenotypes xs)).trans (ih.cons x)

lemma sorted_sortGenotypes (l : List String) :
    List.Sorted (fun a b => strLe a b = true) (sortGenotypes l) := by
  induction l with
  | nil => simp [sortGenotypes]
  | cons x xs ih => exact sorted_insertStr x (sortGenotypes xs) ih

/-! ## Claim theorems for the scheduler (C1, C3, C8) -/

/-- A concrete environment whose alignment store contains only the contig
chr7. -/
def env0 : Env :=
  { rb := fun _ => 'A',
    contigs := ["chr7"],
    fetchReads := fun _ _ _ => [],
    downstream := fun _ _ _ _ _ => "" }

/-- C1 (code-bug evidence): for a locus whose chromosome is absent from the
alignment store, `genotype_repeat` does not return the recoverable
`Err(chrom)` — it panics via `.expect("Could not get reads")` (call.rs:158)
on the `None` of `get_overlapping_reads`, aborting the whole run.  Moreover
the body of `genotype_repeat` contains no `Err` return at all, so a
locus-scoped error value is never produced for any input: the callers'
`Err(chrom)` handling (call.rs:46, 84-92, 129-136) is dead code. -/
theorem C1_missing_contig_aborts_run :
    genotype_repeat env0 ("chr12") 154654404 154654432 5 3 false
      = .error .couldNotGetReads
    ∧ ∀ (env : Env) (chrom : String) (start e minlen support : Nat) (somatic : Bool),
        isLocusErr (genotype_repeat env chrom start e minlen support somatic) = false := by
  refine ⟨rfl, ?_⟩
  intro env chrom start e minlen support somatic
  unfold genotype_repeat
  cases hmk : make_repeat_compressed_sequence env.rb start e with
  | none => rfl
  | some newref =>
    cases hov : get_overlapping_reads env chrom start e with
    | none => rfl
    | some seqs => rfl

/-- The per-chromosome deduplication of the `Err(chrom)` arm: folding any
sequence of locus errors over `handleLocusErr` reports a chromosome once if it
occurs and was not already reported, and never twice. -/
lemma handleLocusErr_fold (chrom : String) : ∀ (errs : List String) (st : RunState),
    (errs.foldl handleLocusErr st).reports.count chrom
      = st.reports.count chrom
        + (if chrom ∈ errs ∧ chrom ∉ st.chromReported then 1 else 0) := by
  intro errs
  induction errs with
  | nil => intro st; simp
  | cons c rest ih =>
    intro st
    rw [List.foldl_cons, ih (handleLocusErr st c)]
    by_cases hc : c ∈ st.chromReported
    · rw [show handleLocusErr st c = st from by simp [handleLocusErr, hc]]
      by_cases hch : chrom = c
      · subst hch
        simp [hc]
      · have hmem : (chrom ∈ c :: rest ∧ chrom ∉ st.chromReported)
            ↔ (chrom ∈ rest ∧ chrom ∉ st.chromReported) := by
          simp [List.mem_cons, hch]
        rw [if_congr hmem rfl rfl]
    · have hupd : handleLocusErr st c
          = { st with
              reports := st.reports ++ [c],
              chromReported := st.chromReported ++ [c] } := by
        simp [handleLocusErr, hc]
      rw [hupd]
      by_cases hch : chrom = c
      · subst hch
        have h1 : (st.reports ++ [chrom]).count chrom = st.reports.count chrom + 1 := by
          simp [List.count_append]
        have h2 : chrom ∈ st.chromReported ++ [chrom] := by simp
        have h3 : (chrom ∈ rest ∧ chrom ∉ st.chromReported ++ [chrom]) ↔ False := by
          simp [h2]
        rw [h1, if_congr h3 rfl rfl]
        have h4 : (chrom ∈ chrom :: rest ∧ chrom ∉ st.chromReported) ↔ True := by
          simp [hc]
        rw [if_congr h4 rfl rfl]
        simp
      · have h1 : (st.reports ++ [c]).count chrom = st.reports.count chrom := by
          simp [List.count_append, List.count_singleton', hch]
        have h2 : chrom ∈ st.chromReported ++ [c] ↔ chrom ∈ st.chromReported := by
          simp [hch]
        have h3 : (chrom ∈ rest ∧ chrom ∉ st.chromReported ++ [c])
            ↔ (chrom ∈ rest ∧ chrom ∉ st.chromReported) := by
          rw [h2]
        have h4 : (chrom ∈ c :: rest ∧ chrom ∉ st.chromReported)
            ↔ (chrom ∈ rest ∧ chrom ∉ st.chromReported) := by
          simp [List.mem_cons, hch]
        rw [h1, if_congr h3 rfl rfl, if_congr h4 rfl rfl]

/-- C8 (code-bug evidence).  Part one: on a region file with two loci on a
chromosome absent from the store, the run does not report "Contig not found"
once — it panics at the first such locus (the `.expect` of call.rs:158),
aborting before any deduplicated report can be made.  Part two: the
deduplication logic itself (call.rs:84-92, 129-136) is correct as the spec
describes — folding any sequence of locus errors from the empty state reports
each distinct chromosome exactly once — but it is unreachable, because
`genotype_repeat` never returns `Err`. -/
theorem C8_contig_report_dedup :
    genotype_repeats_loop env0 5 3 false
        [⟨"chrU", 154654404, 154654432⟩, ⟨"chrU", 154660000, 154660100⟩]
        ⟨[], [], []⟩ = .error .couldNotGetReads
    ∧ ∀ (errs : List String) (chrom : String),
        ((errs.foldl handleLocusErr ⟨[], [], []⟩).reports).count chrom
          = if chrom ∈ errs then 1 else 0 := by
  refine ⟨rfl, ?_⟩
  intro errs chrom
  rw [handleLocusErr_fold chrom errs ⟨[], [], []⟩]
  simp

/-- C3 counterexample: two completed records on the same chromosome with
numeric starts 9 and 10.  `sort_unstable` on the record strings is
lexicographic, so the start-10 record sorts before the start-9 record
(`'1' < '9'` at the first differing byte), i.e. the printed order is not
ascending numeric start as claimed. -/
theorem C3_lexicographic_not_numeric :
    sortGenotypes [formatRecord ("chr1") 9 (""), formatRecord ("chr1") 10 ("")]
      = [formatRecord ("chr1") 10 (""), formatRecord ("chr1") 9 ("")]
    ∧ sortGenotypes [formatRecord ("chr1") 9 (""), formatRecord ("chr1") 10 ("")]
      ≠ [formatRecord ("chr1") 9 (""), formatRecord ("chr1") 10 ("")] :=
  ⟨by decide, by decide⟩

/-- C3 as amended: in multi-worker mode the buffered records are emitted as a
permutation of the completed records sorted ascending in Rust's lexicographic
`String` order of the whole formatted record (whose leading fields are
`chrom\tstart\t.`).  This coincides with ascending `(chrom, start, end)` only
when the decimal renderings compare like the numbers (e.g. equal-width
starts); it is not numeric ordering, and `end` is not a separate key. -/
theorem C3_records_sorted_lexicographically (gs : List String) :
    List.Perm (sortGenotypes gs) gs
    ∧ List.Sorted (fun a b => strLe a b = true) (sortGenotypes gs) :=
  ⟨perm_sortGenotypes gs, sorted_sortGenotypes gs⟩

end STRdust
